import Mathlib

/-!
Verification development for the Azrael physics worker.

The definitions below are shallow embeddings of the corresponding source
functions (file and symbol named at each definition).  Machine doubles are
modelled as rationals, C++ std::map of int to std::set of int as an
association list of keys to lists, and std::set results as Finset.
-/

namespace Azrael

/-!
Connected components (util.cpp: fccJoin, findConnectedComponents).

The C++ source operates on a std::map from int to std::set of int.  We embed
the map as an association list; adjLookup returns the value of the first
matching key (an empty list when the key is absent, matching the value that
operator[] default-constructs).  clearKey models the combined effect of the
operator[] access followed by src[key].clear(): the first entry for the key
is replaced by the empty set, and a missing key is inserted with the empty
set.
-/

/-- Association-list embedding of std::map from int to std::set of int. -/
abbrev AdjMap := List (Int × List Int)

/-- Value stored at a key; the empty list when the key is absent. -/
def adjLookup : AdjMap → Int → List Int
  | [], _ => []
  | (k, v) :: rest, x => if x = k then v else adjLookup rest x

/-- Effect of reading src[key] and then clearing it: the entry becomes empty
(and is created empty when missing, as operator[] does). -/
def clearKey : AdjMap → Int → AdjMap
  | [], k => [(k, [])]
  | (k1, v) :: rest, k =>
    if k = k1 then (k1, []) :: rest else (k1, v) :: clearKey rest k

/-- Total number of stored adjacency entries; the termination measure of the
C++ recursion (each recursive fccJoin call happens after a nonempty set was
cleared). -/
def totalSize (m : AdjMap) : Nat := (m.map (fun p => p.2.length)).sum

/-- Fuelled worklist form of fccJoin (util.cpp lines 68-83).  Processing a
key u reads its set (elems), clears it, recurses on every member in order
(the inner for-loop over the copy), and accumulates every reached set into
the out parameter.  The fuel only bounds the recursion depth; fccRun_isSome
below shows that totalSize plus the worklist length is always enough, so the
fuelled function computes exactly the unfolding of the C++ recursion. -/
def fccRun : Nat → AdjMap → List Int → Option (Finset Int × AdjMap)
  | _, m, [] => some (∅, m)
  | 0, _, _ :: _ => none
  | n + 1, m, u :: us =>
    let elems := adjLookup m u
    let m1 := clearKey m u
    match fccRun n m1 elems with
    | none => none
    | some (t, m2) =>
      match fccRun n m2 us with
      | none => none
      | some (t2, m3) => some (elems.toFinset ∪ t ∪ t2, m3)

/-- fccJoin (util.cpp): collect the component reachable from key, clearing
every visited set.  Returns the out set together with the mutated map. -/
def fccJoin (m : AdjMap) (key : Int) : Finset Int × AdjMap :=
  (fccRun (totalSize m + 2) m [key]).getD (∅, m)

/-- Loop body of findConnectedComponents: call fccJoin for every key and push
the nonempty results.  The C++ iterates the (mutating) std::map in key
order; keys inserted during iteration always carry the empty set, and
calling fccJoin on a key with an empty set changes nothing and emits
nothing, so iterating exactly the initial keys yields the same output and
final map. -/
def ccLoop : AdjMap → List Int → List (Finset Int)
  | _, [] => []
  | m, k :: ks =>
    let r := fccJoin m k
    if r.1 = ∅ then ccLoop r.2 ks else r.1 :: ccLoop r.2 ks

/-- findConnectedComponents (util.cpp lines 85-96).  The unused local tot of
the C++ code is omitted; dst collects each nonempty fccJoin result. -/
def findConnectedComponents (m : AdjMap) : List (Finset Int) :=
  ccLoop m (m.map Prod.fst)

/-- Decidable statement that the stored adjacency relation is symmetric:
every recorded edge is recorded in both directions, which is how the
broadphase records each unordered AABB overlap. -/
def SymmList (m : AdjMap) : Prop :=
  ∀ p ∈ m, ∀ y ∈ p.2, p.1 ∈ adjLookup m y

instance (m : AdjMap) : Decidable (SymmList m) := by
  unfold SymmList; infer_instance

/-- Relation between a map state and the set V of already cleared (visited)
keys: cleared keys hold the empty set, all others still hold their initial
adjacency A. -/
def Approx (A : Int → List Int) (V : Set Int) (m : AdjMap) : Prop :=
  (∀ x ∈ V, adjLookup m x = []) ∧ (∀ x, x ∉ V → adjLookup m x = A x)

/-- Initial adjacency function of a map. -/
def adjFun (m : AdjMap) : Int → List Int := fun x => adjLookup m x

/-- Closure of a visited set under the initial adjacency. -/
def AdjClosed (A : Int → List Int) (V : Set Int) : Prop :=
  ∀ v ∈ V, ∀ x ∈ A v, x ∈ V

/-- Symmetry of an adjacency function. -/
def SymmFun (A : Int → List Int) : Prop :=
  ∀ x y, y ∈ A x → x ∈ A y

/-!
Fixed sub-step handed to the Bullet solver, for the three step operations in
the sources.
-/

/-- stepSimulation of BulletBase (azBullet.pyx, current copy): the third
argument of the Bullet call, fixedTimeStep, is computed as
timeStep / maxSubSteps. -/
def stepSimulationFixedTimeStep (timeStep : ℚ) (maxSubSteps : Int) : ℚ :=
  timeStep / (maxSubSteps : ℚ)

/-- stepSimulation of the second BulletBase copy in azBullet.pyx: the third
argument of the Bullet call is the constant 1/60, independent of timeStep
and maxSubSteps. -/
def stepSimulationLegacyFixedTimeStep (_timeStep : ℚ) (_maxSubSteps : Int) : ℚ :=
  1 / 60

/-- Fixed sub-step in effect inside BulletPhys::compute (bullet.cpp line
433): the call dynamicsWorld->stepSimulation(delta_t, max_substeps) leaves
the third parameter at its default.  Modelled from the spec: the default
fixedTimeStep of the external Bullet function
btDiscreteDynamicsWorld::stepSimulation (absent from src) is 1/60. -/
def computeFixedTimeStep (_delta_t : ℚ) (_max_substeps : Int) : ℚ :=
  1 / 60

/-!
Transforms (transform.pyx, btTransform).
-/

/-- Transform (transform.pyx): a rotation basis together with an origin.
Modelled from the spec: the Python Transform delegates multiplication to the
external Bullet type btTransform (absent from src), which composes by
multiplying the bases and applying the left transform to the right origin,
and acts on a vector by basis * v + origin. -/
structure Transform where
  basis : Matrix (Fin 3) (Fin 3) ℚ
  origin : Fin 3 → ℚ

/-- Action of a transform on a vector (btTransform operator()). -/
def Transform.applyVec (T : Transform) (v : Fin 3 → ℚ) : Fin 3 → ℚ :=
  T.basis.mulVec v + T.origin

/-- Composition (Transform.__mul__ with a Transform argument). -/
def Transform.mul (T1 T2 : Transform) : Transform :=
  ⟨T1.basis * T2.basis, T1.applyVec T2.origin⟩

/-!
Narrowphase contact callback (narrowphase.cpp).
-/

/-- Vector of three doubles. -/
abbrev Vec3 := ℚ × ℚ × ℚ

/-- Quaternion as four stored doubles. -/
abbrev Quat4 := ℚ × ℚ × ℚ × ℚ

/-- Contact point of a manifold as read by the callback. -/
structure ManifoldPoint where
  distance : ℚ
  positionWorldOnA : Vec3
  positionWorldOnB : Vec3
  normalWorldOnB : Vec3
deriving DecidableEq

/-- Persistent manifold as seen by azNarrowphaseCallback: the ids of the two
bodies (read through the user pointers, in manifold order) and the contact
points.  hasUserData records whether the user pointers are set; the C++
skips the manifold when the first pointer is NULL. -/
structure Manifold where
  aidA : Int
  aidB : Int
  hasUserData : Bool
  contacts : List ManifoldPoint
deriving DecidableEq

/-- ContactPair record pushed into narrowphasePairCache. -/
structure AzraelCollisionData where
  aid_a : Int
  aid_b : Int
  point_a : Vec3
  point_b : Vec3
  normal_on_b : Vec3
deriving DecidableEq

/-- azNarrowphaseCallback (narrowphase.cpp lines 27-74): for every manifold
with user data, push one AzraelCollisionData per contact point whose
distance is not positive, keeping the two ids exactly in manifold order. -/
def azNarrowphaseCallback (manifolds : List Manifold) : List AzraelCollisionData :=
  manifolds.flatMap (fun mf =>
    if mf.hasUserData then
      mf.contacts.filterMap (fun pt =>
        if pt.distance > 0 then none
        else some ⟨mf.aidA, mf.aidB, pt.positionWorldOnA, pt.positionWorldOnB,
          pt.normalWorldOnB⟩)
    else [])

/-!
BulletPhys object cache (bullet.cpp).
-/

/-- Collision shape constructed by compileObject. -/
inductive BtShape where
  | empty : BtShape
  | sphere (radius : ℚ) : BtShape
  | box (width height len : ℚ) : BtShape
  | staticPlane (normal : Vec3) (thickness : ℚ) : BtShape
deriving DecidableEq

/-- Rigid body state kept in the object cache of BulletPhys.  The stored
invMass is the inverse mass of the constructed btRigidBody (zero when the
mass was set to zero); the inertia is computed by the external Bullet
library and is not consulted by any claim, so it is not recorded. -/
structure BtBody where
  radius : ℚ
  scale : ℚ
  invMass : ℚ
  restitution : ℚ
  orientation : Quat4
  position : Vec3
  vLin : Vec3
  vRot : Vec3
  shape : BtShape
deriving DecidableEq

/-- Object cache of BulletPhys (std::map from long to rigid body). -/
abbrev ObjCache := List (Int × BtBody)

/-- Lookup by id (object_cache.find / object_cache.at). -/
def cacheLookup : ObjCache → Int → Option BtBody
  | [], _ => none
  | (k, b) :: rest, x => if x = k then some b else cacheLookup rest x

/-- Erase an id (object_cache.erase); absent ids are ignored. -/
def cacheErase : ObjCache → Int → ObjCache
  | [], _ => []
  | (k, b) :: rest, x => if x = k then rest else (k, b) :: cacheErase rest x

/-- Store a body under an id (object_cache[id] = body). -/
def cacheInsert : ObjCache → Int → BtBody → ObjCache
  | [], x, b => [(x, b)]
  | (k, b0) :: rest, x, b =>
    if x = k then (k, b) :: rest else (k, b0) :: cacheInsert rest x b

/-- Collision shape tags (types.hpp enum CollisionShapeName), as the double
values that arrive in the cShape buffer. -/
def colShape_None : ℚ := 0

/-- Tag reserved for engine-chosen shapes; compileObject has no branch for
it, so it falls through to the unknown-shape fallback. -/
def colShape_Auto : ℚ := 1

/-- Tag of btStaticPlaneShape. -/
def colShape_StaticPlane : ℚ := 2

/-- Tag of btSphereShape. -/
def colShape_Sphere : ℚ := 3

/-- Tag of btBoxShape. -/
def colShape_Box : ℚ := 4

/-- Shape dispatch of compileObject (bullet.cpp lines 155-189): tag Empty
yields an empty shape; Sphere, Box and StaticPlane build the corresponding
shapes; every other tag (including Auto) has no branch and yields none,
which the caller turns into the empty-shape fallback after printing a
warning.  The buffer accesses tmp_cs.at(1..3) are total in the source
because setObjectData always passes a buffer of four doubles; they are
modelled with a zero default. -/
def compiledShape (radius scale : ℚ) (tmp_cs : List ℚ) : Option BtShape :=
  if tmp_cs.headI = colShape_None then some BtShape.empty
  else if tmp_cs.headI = colShape_Sphere then some (BtShape.sphere (scale * radius))
  else if tmp_cs.headI = colShape_Box then
    some (BtShape.box (scale * tmp_cs.getD 1 0 / 2) (scale * tmp_cs.getD 2 0 / 2)
      (scale * tmp_cs.getD 3 0 / 2))
  else if tmp_cs.headI = colShape_StaticPlane then
    some (BtShape.staticPlane (tmp_cs.getD 1 0, tmp_cs.getD 2 0, tmp_cs.getD 3 0)
      (1 / 100))
  else none

/-- Inverse mass after the overrides of the shape dispatch: the Empty tag
and the unknown-tag fallback both force it to zero. -/
def compiledInvMass (radius scale inv_mass : ℚ) (tmp_cs : List ℚ) : ℚ :=
  let new_inv_mass : ℚ :=
    if tmp_cs.headI = colShape_None then 0
    else if (compiledShape radius scale tmp_cs).isNone then 0
    else inv_mass
  if new_inv_mass < 1 / 10000 then 0 else new_inv_mass

/-- Body record constructed and cached for a previously unknown id. -/
def compiledBody (_id : Int) (radius scale inv_mass restitution : ℚ)
    (rot : Quat4) (pos vLin vRot : Vec3) (cShape : List ℚ) : BtBody :=
  let tmp_cs : List ℚ := if cShape.isEmpty then [colShape_None] else cShape
  ⟨radius, scale, compiledInvMass radius scale inv_mass tmp_cs, restitution,
    rot, pos, vLin, vRot,
    (compiledShape radius scale tmp_cs).getD BtShape.empty⟩

/-- compileObject (bullet.cpp lines 122-245).  An id already in the cache
only has its transform and velocities updated.  A new id gets a collision
shape and inverse mass compiled from the cShape buffer (an empty buffer is
padded with the Empty tag) and is inserted into the cache; inverse masses
below the 1E-4 threshold produce a mass of zero, hence a stored inverse
mass of zero. -/
def compileObject (cache : ObjCache) (id : Int)
    (radius scale inv_mass restitution : ℚ) (rot : Quat4)
    (pos vLin vRot : Vec3) (cShape : List ℚ) : ObjCache :=
  match cacheLookup cache id with
  | some b =>
    cacheInsert cache id
      { b with orientation := rot, position := pos, vLin := vLin, vRot := vRot }
  | none =>
    cacheInsert cache id
      (compiledBody id radius scale inv_mass restitution rot pos vLin vRot cShape)

/-- Loop of removeObject: erase each id and count every iteration. -/
def removeObjectLoop : ObjCache → List Int → Int → Int × ObjCache
  | cache, [], cnt => (cnt, cache)
  | cache, i :: rest, cnt => removeObjectLoop (cacheErase cache i) rest (cnt + 1)

/-- removeObject (bullet.cpp lines 394-401): erase every listed id from the
cache; the returned count is incremented once per listed id, present in the
cache or not. -/
def removeObject (cache : ObjCache) (ids : List Int) : Int × ObjCache :=
  removeObjectLoop cache ids 0

/-- Membership loop at the start of BulletPhys::compute; the C++ aborts at
the first id missing from the cache. -/
def computeAllPresent : ObjCache → List Int → Bool
  | _, [] => true
  | cache, i :: rest =>
    if (cacheLookup cache i).isSome then computeAllPresent cache rest else false

/-- compute (bullet.cpp lines 403-440).  The listed bodies are added to the
dynamics world, stepped by the external Bullet solver, and removed from the
world again; the mutation the solver applies to the listed bodies is
abstracted as the parameter step.  When a listed id is missing from the
cache, the function returns error code 1 before
dynamicsWorld->stepSimulation runs, so the cached body states are left
exactly as they were (adding a body to the world and activating it does not
change the cached state modelled here). -/
def compute (step : ℚ → Int → List Int → ObjCache → ObjCache)
    (cache : ObjCache) (ids : List Int) (delta_t : ℚ) (max_substeps : Int) :
    Int × ObjCache :=
  if computeAllPresent cache ids then (0, step delta_t max_substeps ids cache)
  else (1, cache)

/-- Modelled from the spec: bodies with invMass = 0 are ignored by the
solver (pose unchanged).  The integrator of the external Bullet library
(btDiscreteDynamicsWorld, absent from src) never integrates a static body,
that is one whose inverse mass is zero; its effect on dynamic bodies is an
arbitrary update function. -/
def solverStep (integrate : BtBody → BtBody) (b : BtBody) : BtBody :=
  if b.invMass = 0 then b else integrate b

/-- External operations that build up a BulletPhys object cache. -/
inductive CacheOp where
  | compile (id : Int) (radius scale inv_mass restitution : ℚ) (rot : Quat4)
      (pos vLin vRot : Vec3) (cShape : List ℚ) : CacheOp
  | remove (ids : List Int) : CacheOp

/-- Apply one cache operation. -/
def applyCacheOp (cache : ObjCache) : CacheOp → ObjCache
  | CacheOp.compile id radius scale inv_mass restitution rot pos vLin vRot cShape =>
    compileObject cache id radius scale inv_mass restitution rot pos vLin vRot cShape
  | CacheOp.remove ids => (removeObject cache ids).2

/-- Cache reached from the empty cache by a sequence of operations. -/
def runCacheOps (ops : List CacheOp) : ObjCache := ops.foldl applyCacheOp []

/-!
Constraint bookkeeping of BulletBase (azBullet.pyx lines 124-158).
-/

/-- State relevant to constraint bookkeeping: the Python list
_list_constraints and the constraint array of the external dynamics world.
Constraints are identified by the wrapped btTypedConstraint pointer:
distinct wrapper objects hold distinct pointers, and TypedConstraint defines
no custom equality, so Python equality on wrappers is pointer equality.  The
world array is modelled as a multiset because the external Bullet removal
(btAlignedObjectArray::remove, absent from src) swap-removes one occurrence,
which only permutes the array. -/
structure ConstraintEnv where
  pyList : List Int
  world : Multiset Int
deriving DecidableEq

/-- Freshly constructed BulletBase: empty list, empty world. -/
def initialConstraintEnv : ConstraintEnv := ⟨[], 0⟩

/-- addConstraint (azBullet.pyx lines 127-134): return immediately when the
constraint is already in the list, otherwise append it and add it to the
world. -/
def addConstraint (env : ConstraintEnv) (c : Int) : ConstraintEnv :=
  if c ∈ env.pyList then env
  else ⟨env.pyList ++ [c], env.world + {c}⟩

/-- removeConstraint (azBullet.pyx lines 145-152): tmp drops every list
entry equal to the argument; the guard compares the integer len(tmp) with
the list object itself, which is never true in Python, so the else branch
always runs: the list becomes tmp and the world removes one occurrence of
the pointer (a no-op when it is absent). -/
def removeConstraint (env : ConstraintEnv) (c : Int) : ConstraintEnv :=
  let tmp := env.pyList.filter (fun x => x != c)
  if False then env
  else ⟨tmp, env.world.erase c⟩

/-- getConstraint (azBullet.pyx lines 136-140): returns a list element (or
None) and leaves the state unchanged. -/
def getConstraint (env : ConstraintEnv) (_index : Int) : ConstraintEnv := env

/-- getNumConstraints (azBullet.pyx lines 154-158): none models the
AssertionError raised when the list length and the world count disagree. -/
def getNumConstraints (env : ConstraintEnv) : Option Nat :=
  if env.pyList.length ≠ Multiset.card env.world then none
  else some (Multiset.card env.world)

/-- Constraint operations of the simulation environment. -/
inductive ConstraintOp where
  | add (c : Int)
  | remove (c : Int)
  | get (index : Int)

/-- Apply one constraint operation. -/
def applyConstraintOp (env : ConstraintEnv) : ConstraintOp → ConstraintEnv
  | ConstraintOp.add c => addConstraint env c
  | ConstraintOp.remove c => removeConstraint env c
  | ConstraintOp.get i => getConstraint env i

/-- Environment reached from a fresh BulletBase by a sequence of constraint
operations. -/
def runConstraintOps (ops : List ConstraintOp) : ConstraintEnv :=
  ops.foldl applyConstraintOp initialConstraintEnv

/-- Shape-empty-to-zero-inverse-mass invariant of caches built by
compileObject and removeObject. -/
def CacheInv (cache : ObjCache) : Prop :=
  ∀ p ∈ cache, p.2.shape = BtShape.empty → p.2.invMass = 0

/-- Invariant tying the Python constraint list to the world array. -/
def ConstraintInv (env : ConstraintEnv) : Prop :=
  env.pyList.Nodup ∧ (env.pyList : Multiset Int) = env.world

/-!
Concrete example values used by the witness theorems.
-/

/-- Example operation list: compile one body with the Empty shape tag. -/
def opsEx : List CacheOp :=
  [CacheOp.compile 7 1 1 (1 / 2) 0 (0, 0, 0, 1) (0, 0, 0) (0, 0, 0) (0, 0, 0)
    [0, 0, 0, 0]]

/-- Body that opsEx stores under id 7: the Empty tag forces invMass 0. -/
def bodyEx : BtBody :=
  ⟨1, 1, 0, 0, (0, 0, 0, 1), (0, 0, 0), (0, 0, 0), (0, 0, 0), BtShape.empty⟩

/-- Example integrator that moves a body, to exhibit that solverStep shields
static bodies from it. -/
def integrateEx : BtBody → BtBody := fun b => { b with position := (1, 2, 3) }

/-- Example cache with a single body under id 1. -/
def cacheEx : ObjCache := [(1, bodyEx)]

/-- Example solver action that would wipe every body, to exhibit that the
failing compute call does not invoke it. -/
def stepEx : ℚ → Int → List Int → ObjCache → ObjCache := fun _ _ _ _ => []

/-- Example manifold whose first body id is larger than its second. -/
def manifoldEx : Manifold := ⟨5, 3, true, [⟨0, (0, 0, 0), (0, 0, 0), (0, 1, 0)⟩]⟩

/-- Contact record that azNarrowphaseCallback produces for manifoldEx. -/
def collisionEx : AzraelCollisionData := ⟨5, 3, (0, 0, 0), (0, 0, 0), (0, 1, 0)⟩

/-- Example symmetric adjacency map with the single undirected edge 1-2. -/
def adjEx : AdjMap := [(1, [2]), (2, [1])]

lemma adjLookup_clearKey (m : AdjMap) (k x : Int) :
    adjLookup (clearKey m k) x = if x = k then [] else adjLookup m x := by
  induction m with
  | nil => simp [clearKey, adjLookup]
  | cons p rest ih =>
    obtain ⟨k1, v⟩ := p
    by_cases hk : k = k1
    · simp only [clearKey, if_pos hk, adjLookup]
      by_cases hx : x = k1
      · have hxk : x = k := by rw [hx, hk]
        simp [hx, hxk, hx.symm.trans hxk]
      · have hxk : ¬ x = k := fun h => hx (h.trans hk)
        simp [hx, hxk]
    · simp only [clearKey, if_neg hk, adjLookup, ih]
      by_cases hx : x = k1
      · have hxk : ¬ x = k := fun h => hk (h.symm.trans hx)
        have hk1 : ¬ k1 = k := fun h => hk h.symm
        simp [hx, hxk, hk1]
      · simp [hx]

lemma totalSize_clearKey (m : AdjMap) (k : Int) :
    totalSize (clearKey m k) + (adjLookup m k).length = totalSize m := by
  induction m with
  | nil => simp [clearKey, adjLookup, totalSize]
  | cons p rest ih =>
    obtain ⟨k1, v⟩ := p
    by_cases hk : k = k1
    · subst hk
      simp [clearKey, adjLookup, totalSize]
      omega
    · simp only [clearKey, if_neg hk, adjLookup, totalSize, List.map_cons,
        List.sum_cons]
      have := ih
      simp only [totalSize] at this
      omega

lemma fccRun_totalSize :
    ∀ (n : Nat) (m : AdjMap) (ws : List Int) (t : Finset Int) (m2 : AdjMap),
      fccRun n m ws = some (t, m2) → totalSize m2 ≤ totalSize m := by
  intro n
  induction n with
  | zero =>
    intro m ws t m2 h
    cases ws with
    | nil =>
      simp [fccRun] at h
      rw [← h.2]
    | cons u us => simp [fccRun] at h
  | succ n ih =>
    intro m ws t m2 h
    cases ws with
    | nil =>
      simp [fccRun] at h
      rw [h.2]
    | cons u us =>
      simp only [fccRun] at h
      split at h
      next => simp at h
      next t1 mm2 heq1 =>
        split at h
        next => simp at h
        next t2 m3 heq2 =>
          simp only [Option.some.injEq, Prod.mk.injEq] at h
          have ha := ih _ _ _ _ heq1
          have hb := ih _ _ _ _ heq2
          have hc := totalSize_clearKey m u
          rw [h.2] at hb
          omega

lemma fccRun_isSome :
    ∀ (n : Nat) (m : AdjMap) (ws : List Int),
      totalSize m + ws.length < n → (fccRun n m ws).isSome := by
  intro n
  induction n with
  | zero => intro m ws h; omega
  | succ n ih =>
    intro m ws h
    cases ws with
    | nil => simp [fccRun]
    | cons u us =>
      have hc := totalSize_clearKey m u
      have h1 : totalSize (clearKey m u) + (adjLookup m u).length < n := by
        simp at h; omega
      obtain ⟨⟨t1, m2⟩, hr1⟩ := Option.isSome_iff_exists.mp (ih _ _ h1)
      have hm2 := fccRun_totalSize _ _ _ _ _ hr1
      have h2 : totalSize m2 + us.length < n := by
        simp at h; omega
      obtain ⟨⟨t2, m3⟩, hr2⟩ := Option.isSome_iff_exists.mp (ih _ _ h2)
      simp only [fccRun]
      rw [hr1]
      simp [hr2]

lemma fccRun_spec (A : Int → List Int) :
    ∀ (n : Nat) (m : AdjMap) (ws : List Int) (V : Set Int) (t : Finset Int)
      (m2 : AdjMap), Approx A V m → fccRun n m ws = some (t, m2) →
      ∃ V2 : Set Int, Approx A V2 m2 ∧ V ⊆ V2 ∧ (∀ u ∈ ws, u ∈ V2) ∧
        (∀ x ∈ t, x ∈ V2) ∧
        (∀ x, x ∈ t ↔ ∃ y, y ∈ V2 ∧ y ∉ V ∧ x ∈ A y) := by
  intro n
  induction n with
  | zero =>
    intro m ws V t m2 hA h
    cases ws with
    | nil =>
      refine ⟨V, ?_, le_refl V, ?_, ?_, ?_⟩
      · simp [fccRun] at h; rw [← h.2]; exact hA
      · simp
      · simp [fccRun] at h; rw [← h.1]; simp
      · simp [fccRun] at h
        intro x
        rw [← h.1]
        simp only [Finset.not_mem_empty, false_iff]
        rintro ⟨y, hy1, hy2, _⟩
        exact hy2 hy1
    | cons u us => simp [fccRun] at h
  | succ n ih =>
    intro m ws V t m2 hA h
    cases ws with
    | nil =>
      simp [fccRun] at h
      refine ⟨V, ?_, le_refl V, by simp, ?_, ?_⟩
      · rw [← h.2]; exact hA
      · rw [← h.1]; simp
      · intro x
        rw [← h.1]
        simp only [Finset.not_mem_empty, false_iff]
        rintro ⟨y, hy1, hy2, _⟩
        exact hy2 hy1
    | cons u us =>
      simp only [fccRun] at h
      set elems := adjLookup m u with helems
      set m1 := clearKey m u with hm1
      have hA1 : Approx A (V ∪ {u}) m1 := by
        constructor
        · intro x hx
          rw [hm1, adjLookup_clearKey]
          rcases hx with hx | hx
          · by_cases hxu : x = u
            · simp [hxu]
            · simp only [if_neg hxu]; exact hA.1 x hx
          · simp [Set.mem_singleton_iff.mp hx]
        · intro x hx
          rw [hm1, adjLookup_clearKey]
          have hxu : ¬ x = u := fun hc => hx (Or.inr (by simp [hc]))
          have hxV : x ∉ V := fun hc => hx (Or.inl hc)
          simp only [if_neg hxu]
          exact hA.2 x hxV
      split at h
      next => simp at h
      next t1 mm2 heq1 =>
        split at h
        next => simp at h
        next t2 m3 heq2 =>
          simp only [Option.some.injEq, Prod.mk.injEq] at h
          obtain ⟨ht, hm3⟩ := h
          obtain ⟨V2, hA2, hV12, hws1, ht1V, hchar1⟩ :=
            ih m1 elems (V ∪ {u}) t1 mm2 hA1 heq1
          obtain ⟨V3, hA3, hV23, hws2, ht2V, hchar2⟩ :=
            ih mm2 us V2 t2 m3 hA2 heq2
          have huV2 : u ∈ V2 := hV12 (Or.inr rfl)
          have hVV2 : V ⊆ V2 := fun x hx => hV12 (Or.inl hx)
          refine ⟨V3, by rw [← hm3]; exact hA3, fun x hx => hV23 (hVV2 hx),
            ?_, ?_, ?_⟩
          · intro w hw
            rcases List.mem_cons.mp hw with hw | hw
            · rw [hw]; exact hV23 huV2
            · exact hws2 w hw
          · intro x hx
            rw [← ht] at hx
            simp only [Finset.mem_union] at hx
            rcases hx with (hx | hx) | hx
            · rw [List.mem_toFinset] at hx
              exact hV23 (hws1 x hx)
            · exact hV23 (ht1V x hx)
            · exact ht2V x hx
          · intro x
            rw [← ht]
            simp only [Finset.mem_union, List.mem_toFinset]
            constructor
            · rintro ((hx | hx) | hx)
              · by_cases huV : u ∈ V
                · rw [helems, hA.1 u huV] at hx; simp at hx
                · refine ⟨u, hV23 huV2, huV, ?_⟩
                  rw [helems, hA.2 u huV] at hx
                  exact hx
              · obtain ⟨y, hy3, hy2, hyA⟩ := (hchar1 x).mp hx
                refine ⟨y, hV23 hy3, fun hc => hy2 (Or.inl hc), hyA⟩
              · obtain ⟨y, hy3, hy2, hyA⟩ := (hchar2 x).mp hx
                exact ⟨y, hy3, fun hc => hy2 (hVV2 hc), hyA⟩
            · rintro ⟨y, hy3, hyV, hyA⟩
              by_cases hy2 : y ∈ V2
              · by_cases hyu : y = u
                · subst hyu
                  left; left
                  rw [helems, hA.2 y hyV]
                  exact hyA
                · left; right
                  exact (hchar1 x).mpr ⟨y, hy2, fun hc => by
                    rcases hc with hc | hc
                    · exact hyV hc
                    · exact hyu (Set.mem_singleton_iff.mp hc), hyA⟩
              · right
                exact (hchar2 x).mpr ⟨y, hy3, hy2, hyA⟩

lemma fccJoin_spec (A : Int → List Int) (V : Set Int) (m : AdjMap) (k : Int)
    (hA : Approx A V m) :
    ∃ V2 : Set Int, Approx A V2 (fccJoin m k).2 ∧ V ⊆ V2 ∧ k ∈ V2 ∧
      (∀ x ∈ (fccJoin m k).1, x ∈ V2) ∧
      (∀ x, x ∈ (fccJoin m k).1 ↔ ∃ y, y ∈ V2 ∧ y ∉ V ∧ x ∈ A y) := by
  have hs : (fccRun (totalSize m + 2) m [k]).isSome :=
    fccRun_isSome _ _ _ (by simp)
  obtain ⟨⟨t, m2⟩, hr⟩ := Option.isSome_iff_exists.mp hs
  obtain ⟨V2, h1, h2, h3, h4, h5⟩ := fccRun_spec A _ m [k] V t m2 hA hr
  have hj : fccJoin m k = (t, m2) := by
    simp [fccJoin, hr]
  rw [hj]
  exact ⟨V2, h1, h2, h3 k (by simp), h4, h5⟩

lemma adjLookup_mem_of_symmList {m : AdjMap} (hs : SymmList m) :
    SymmFun (adjFun m) := by
  intro x y hy
  simp only [adjFun] at hy ⊢
  have hx : (x, adjLookup m x) ∈ m := by
    clear hs
    induction m with
    | nil => simp [adjLookup] at hy
    | cons p rest ih =>
      obtain ⟨k1, v⟩ := p
      simp only [adjLookup] at hy
      by_cases hxk : x = k1
      · rw [hxk]
        simp [adjLookup, hxk]
      · rw [if_neg hxk] at hy
        simp only [adjLookup, if_neg hxk]
        exact List.mem_cons_of_mem _ (ih hy)
  exact hs (x, adjLookup m x) hx y hy

lemma ccLoop_disjoint_aux (A : Int → List Int) (hsymm : SymmFun A) :
    ∀ (ks : List Int) (m : AdjMap) (V : Set Int),
      Approx A V m → AdjClosed A V →
      (∀ s ∈ ccLoop m ks, ∀ x ∈ s, x ∉ V) ∧
        List.Pairwise (fun s t => ∀ x ∈ s, x ∉ t) (ccLoop m ks) := by
  intro ks
  induction ks with
  | nil => intro m V _ _; simp [ccLoop]
  | cons k ks ih =>
    intro m V hA hCl
    obtain ⟨V2, hA2, hVV2, hkV2, htV2, hchar⟩ := fccJoin_spec A V m k hA
    have hfresh : ∀ x ∈ (fccJoin m k).1, x ∉ V := by
      intro x hx hxV
      obtain ⟨y, hy2, hyV, hyA⟩ := (hchar x).mp hx
      exact hyV (hCl x hxV y (hsymm y x hyA))
    have hCl2 : AdjClosed A V2 := by
      intro v hv x hx
      by_cases hvV : v ∈ V
      · exact hVV2 (hCl v hvV x hx)
      · exact htV2 x ((hchar x).mpr ⟨v, hv, hvV, hx⟩)
    obtain ⟨ih1, ih2⟩ := ih (fccJoin m k).2 V2 hA2 hCl2
    by_cases hemp : (fccJoin m k).1 = ∅
    · rw [ccLoop, if_pos hemp]
      refine ⟨?_, ih2⟩
      intro s hs x hx hxV
      exact ih1 s hs x hx (hVV2 hxV)
    · rw [ccLoop, if_neg hemp]
      refine ⟨?_, ?_⟩
      · intro s hs x hx hxV
        rcases List.mem_cons.mp hs with hs | hs
        · exact hfresh x (hs ▸ hx) hxV
        · exact ih1 s hs x hx (hVV2 hxV)
      · refine List.pairwise_cons.mpr ⟨?_, ih2⟩
        intro s hs x hx
        exact fun hxs => ih1 s hs x hxs (htV2 x hx)

lemma ccLoop_edge_aux (A : Int → List Int) (hsymm : SymmFun A) :
    ∀ (ks : List Int) (m : AdjMap) (V : Set Int) (a b : Int),
      Approx A V m → AdjClosed A V → b ∈ A a → a ∉ V → b ∉ V → a ∈ ks →
      ∃ c ∈ ccLoop m ks, a ∈ c ∧ b ∈ c := by
  intro ks
  induction ks with
  | nil => intro m V a b _ _ _ _ _ hmem; simp at hmem
  | cons k ks ih =>
    intro m V a b hA hCl hab haV hbV hmem
    obtain ⟨V2, hA2, hVV2, hkV2, htV2, hchar⟩ := fccJoin_spec A V m k hA
    by_cases ha2 : a ∈ V2
    · have hb1 : b ∈ (fccJoin m k).1 := (hchar b).mpr ⟨a, ha2, haV, hab⟩
      have hb2 : b ∈ V2 := htV2 b hb1
      have ha1 : a ∈ (fccJoin m k).1 :=
        (hchar a).mpr ⟨b, hb2, hbV, hsymm a b hab⟩
      have hemp : ¬ (fccJoin m k).1 = ∅ := by
        intro hc; rw [hc] at hb1; exact absurd hb1 (Finset.not_mem_empty b)
      refine ⟨(fccJoin m k).1, ?_, ha1, hb1⟩
      rw [ccLoop, if_neg hemp]
      exact List.mem_cons_self _ _
    · have hb2 : b ∉ V2 := by
        intro hc
        exact ha2 (htV2 a ((hchar a).mpr ⟨b, hc, hbV, hsymm a b hab⟩))
      have hks : a ∈ ks := by
        rcases List.mem_cons.mp hmem with hm | hm
        · exact absurd (hm ▸ hkV2) ha2
        · exact hm
      have hfresh : ∀ x ∈ (fccJoin m k).1, x ∉ V := by
        intro x hx hxV
        obtain ⟨y, hy2, hyV, hyA⟩ := (hchar x).mp hx
        exact hyV (hCl x hxV y (hsymm y x hyA))
      have hCl2 : AdjClosed A V2 := by
        intro v hv x hx
        by_cases hvV : v ∈ V
        · exact hVV2 (hCl v hvV x hx)
        · exact htV2 x ((hchar x).mpr ⟨v, hv, hvV, hx⟩)
      obtain ⟨c, hc1, hc2, hc3⟩ :=
        ih (fccJoin m k).2 V2 a b hA2 hCl2 hab ha2 hb2 hks
      refine ⟨c, ?_, hc2, hc3⟩
      by_cases hemp : (fccJoin m k).1 = ∅
      · rw [ccLoop, if_pos hemp]; exact hc1
      · rw [ccLoop, if_neg hemp]; exact List.mem_cons_of_mem _ hc1

lemma adjLookup_key_mem {m : AdjMap} {x : Int} (h : adjLookup m x ≠ []) :
    x ∈ m.map Prod.fst := by
  induction m with
  | nil => simp [adjLookup] at h
  | cons p rest ih =>
    obtain ⟨k1, v⟩ := p
    simp only [adjLookup] at h
    by_cases hx : x = k1
    · simp [hx]
    · rw [if_neg hx] at h
      simp only [List.map_cons, List.mem_cons]
      exact Or.inr (ih h)

lemma cacheLookup_mem {cache : ObjCache} {x : Int} {b : BtBody}
    (h : cacheLookup cache x = some b) : (x, b) ∈ cache := by
  induction cache with
  | nil => simp [cacheLookup] at h
  | cons p rest ih =>
    obtain ⟨k, b0⟩ := p
    simp only [cacheLookup] at h
    by_cases hx : x = k
    · rw [if_pos hx] at h
      rw [hx]
      simp only [Option.some.injEq] at h
      rw [h]
      exact List.mem_cons_self _ _
    · rw [if_neg hx] at h
      exact List.mem_cons_of_mem _ (ih h)

lemma cacheInsert_mem {cache : ObjCache} {x : Int} {b : BtBody}
    {p : Int × BtBody} (hp : p ∈ cacheInsert cache x b) :
    p = (x, b) ∨ p ∈ cache := by
  induction cache with
  | nil => simp [cacheInsert] at hp; exact Or.inl hp
  | cons q rest ih =>
    obtain ⟨k, b0⟩ := q
    simp only [cacheInsert] at hp
    by_cases hx : x = k
    · rw [if_pos hx] at hp
      rcases List.mem_cons.mp hp with hp | hp
      · exact Or.inl (by rw [hp, hx])
      · exact Or.inr (List.mem_cons_of_mem _ hp)
    · rw [if_neg hx] at hp
      rcases List.mem_cons.mp hp with hp | hp
      · exact Or.inr (hp ▸ List.mem_cons_self _ _)
      · rcases ih hp with hq | hq
        · exact Or.inl hq
        · exact Or.inr (List.mem_cons_of_mem _ hq)

lemma cacheErase_mem {cache : ObjCache} {x : Int} {p : Int × BtBody}
    (hp : p ∈ cacheErase cache x) : p ∈ cache := by
  induction cache with
  | nil => simp [cacheErase] at hp
  | cons q rest ih =>
    obtain ⟨k, b0⟩ := q
    simp only [cacheErase] at hp
    by_cases hx : x = k
    · rw [if_pos hx] at hp
      exact List.mem_cons_of_mem _ hp
    · rw [if_neg hx] at hp
      rcases List.mem_cons.mp hp with hp | hp
      · exact hp ▸ List.mem_cons_self _ _
      · exact List.mem_cons_of_mem _ (ih hp)

lemma removeObjectLoop_mem :
    ∀ (ids : List Int) (cache : ObjCache) (cnt : Int) (p : Int × BtBody),
      p ∈ (removeObjectLoop cache ids cnt).2 → p ∈ cache := by
  intro ids
  induction ids with
  | nil => intro cache cnt p hp; simpa [removeObjectLoop] using hp
  | cons i rest ih =>
    intro cache cnt p hp
    exact cacheErase_mem (ih (cacheErase cache i) (cnt + 1) p hp)

lemma cacheLookup_cacheInsert (cache : ObjCache) (x : Int) (b : BtBody) :
    cacheLookup (cacheInsert cache x b) x = some b := by
  induction cache with
  | nil => simp [cacheInsert, cacheLookup]
  | cons q rest ih =>
    obtain ⟨k, b0⟩ := q
    simp only [cacheInsert]
    by_cases hx : x = k
    · rw [if_pos hx]
      simp [cacheLookup, hx]
    · rw [if_neg hx]
      simp [cacheLookup, hx, ih]

lemma compiledInvMass_of_empty (radius scale inv_mass : ℚ) (tmp_cs : List ℚ)
    (h : (compiledShape radius scale tmp_cs).getD BtShape.empty = BtShape.empty) :
    compiledInvMass radius scale inv_mass tmp_cs = 0 := by
  by_cases h0 : tmp_cs.headI = colShape_None
  · norm_num [compiledInvMass, h0]
  · by_cases h3 : tmp_cs.headI = colShape_Sphere
    · norm_num [compiledShape, h0, h3, colShape_None, colShape_Sphere] at h
      exact BtShape.noConfusion h
    · by_cases h4 : tmp_cs.headI = colShape_Box
      · norm_num [compiledShape, h0, h3, h4, colShape_None, colShape_Sphere,
          colShape_Box] at h
        exact BtShape.noConfusion h
      · by_cases h2 : tmp_cs.headI = colShape_StaticPlane
        · norm_num [compiledShape, h0, h3, h4, h2, colShape_None,
            colShape_Sphere, colShape_Box, colShape_StaticPlane] at h
          exact BtShape.noConfusion h
        · norm_num [compiledInvMass, compiledShape, h0, h3, h4, h2]

lemma compileObject_cacheInv {cache : ObjCache} (hc : CacheInv cache)
    (id : Int) (radius scale inv_mass restitution : ℚ) (rot : Quat4)
    (pos vLin vRot : Vec3) (cShape : List ℚ) :
    CacheInv (compileObject cache id radius scale inv_mass restitution rot
      pos vLin vRot cShape) := by
  intro p hp hsh
  unfold compileObject at hp
  split at hp
  next b hl =>
    rcases cacheInsert_mem hp with hq | hq
    · have hb := hc (id, b) (cacheLookup_mem hl)
      rw [hq] at hsh ⊢
      exact hb hsh
    · exact hc p hq hsh
  next hl =>
    rcases cacheInsert_mem hp with hq | hq
    · rw [hq] at hsh ⊢
      simp only [compiledBody] at hsh ⊢
      exact compiledInvMass_of_empty _ _ _ _ hsh
    · exact hc p hq hsh

lemma runCacheOps_cacheInv (ops : List CacheOp) : CacheInv (runCacheOps ops) := by
  have haux : ∀ (l : List CacheOp) (cache : ObjCache), CacheInv cache →
      CacheInv (l.foldl applyCacheOp cache) := by
    intro l
    induction l with
    | nil => intro cache hc; simpa using hc
    | cons op rest ih =>
      intro cache hc
      simp only [List.foldl_cons]
      refine ih _ ?_
      cases op with
      | compile id radius scale inv_mass restitution rot pos vLin vRot cShape =>
        exact compileObject_cacheInv hc id radius scale inv_mass restitution
          rot pos vLin vRot cShape
      | remove ids =>
        intro p hp hsh
        exact hc p (removeObjectLoop_mem ids cache 0 p hp) hsh
  refine haux ops [] ?_
  intro p hp
  simp at hp

lemma computeAllPresent_eq_false {cache : ObjCache} {ids : List Int} {i : Int}
    (hi : i ∈ ids) (hm : cacheLookup cache i = none) :
    computeAllPresent cache ids = false := by
  induction ids with
  | nil => simp at hi
  | cons j rest ih =>
    simp only [computeAllPresent]
    rcases List.mem_cons.mp hi with hij | hij
    · rw [← hij, hm]
      simp
    · by_cases hj : (cacheLookup cache j).isSome
      · rw [if_pos hj]
        exact ih hij
      · rw [if_neg hj]

lemma removeObjectLoop_count :
    ∀ (ids : List Int) (cache : ObjCache) (cnt : Int),
      (removeObjectLoop cache ids cnt).1 = cnt + (ids.length : Int) := by
  intro ids
  induction ids with
  | nil => intro cache cnt; simp [removeObjectLoop]
  | cons i rest ih =>
    intro cache cnt
    simp only [removeObjectLoop, ih, List.length_cons]
    push_cast
    ring

lemma constraintInv_apply (env : ConstraintEnv) (op : ConstraintOp)
    (h : ConstraintInv env) : ConstraintInv (applyConstraintOp env op) := by
  obtain ⟨hnd, hw⟩ := h
  cases op with
  | add c =>
    simp only [applyConstraintOp, addConstraint]
    by_cases hc : c ∈ env.pyList
    · rw [if_pos hc]; exact ⟨hnd, hw⟩
    · rw [if_neg hc]
      refine ⟨?_, ?_⟩
      · simp [List.nodup_append, hnd, hc]
      · show ((env.pyList ++ [c] : List Int) : Multiset Int) = env.world + {c}
        rw [← hw, ← Multiset.coe_singleton, Multiset.coe_add]
  | remove c =>
    simp only [applyConstraintOp, removeConstraint, if_neg (fun h => h)]
    refine ⟨hnd.filter _, ?_⟩
    show ((env.pyList.filter (fun x => x != c) : List Int) : Multiset Int)
      = env.world.erase c
    rw [← List.Nodup.erase_eq_filter hnd c, ← hw, Multiset.coe_erase]
  | get i => exact ⟨hnd, hw⟩

lemma runConstraintOps_inv (ops : List ConstraintOp) :
    ConstraintInv (runConstraintOps ops) := by
  have haux : ∀ (l : List ConstraintOp) (env : ConstraintEnv),
      ConstraintInv env → ConstraintInv (l.foldl applyConstraintOp env) := by
    intro l
    induction l with
    | nil => intro env h; simpa using h
    | cons op rest ih =>
      intro env h
      simp only [List.foldl_cons]
      exact ih _ (constraintInv_apply env op h)
  exact haux ops initialConstraintEnv ⟨List.nodup_nil, rfl⟩

/-!
Claim theorems.
-/

/-- C1: the claim states that every step operation passes the fixed sub-step
dt/maxSubSteps to the solver.  Evaluated at dt = 1/10, maxSubSteps = 10: the
current BulletBase.stepSimulation does pass 1/100 = dt/maxSubSteps, but
BulletPhys::compute and the second stepSimulation copy pass the Bullet
default 1/60 regardless of the arguments, contradicting the comment inside
BulletPhys::compute that documents a finest sub-step of
delta_t / max_substeps = 0.01. -/
theorem compute_substep_uses_bullet_default :
    stepSimulationFixedTimeStep (1 / 10) 10 = 1 / 100 ∧
    computeFixedTimeStep (1 / 10) 10 = 1 / 60 ∧
    stepSimulationLegacyFixedTimeStep (1 / 10) 10 = 1 / 60 ∧
    computeFixedTimeStep (1 / 10) 10 ≠ stepSimulationFixedTimeStep (1 / 10) 10 := by
  refine ⟨by norm_num [stepSimulationFixedTimeStep], rfl, rfl, ?_⟩
  norm_num [computeFixedTimeStep, stepSimulationFixedTimeStep]

/-- C2: in a symmetric overlap relation (each unordered AABB overlap
recorded as an edge in both directions), the two endpoints of every edge end
up together in one output component of findConnectedComponents. -/
theorem overlap_edge_same_island (m : AdjMap) (hsym : SymmList m) (a b : Int)
    (hab : b ∈ adjLookup m a) :
    ∃ c ∈ findConnectedComponents m, a ∈ c ∧ b ∈ c := by
  have hS : SymmFun (adjFun m) := adjLookup_mem_of_symmList hsym
  have hA : Approx (adjFun m) ∅ m :=
    ⟨by intro x hx; simp at hx, by intro x _; rfl⟩
  have hCl : AdjClosed (adjFun m) ∅ := by intro v hv; simp at hv
  have hne : adjLookup m a ≠ [] := by
    intro hc; rw [hc] at hab; simp at hab
  exact ccLoop_edge_aux (adjFun m) hS (m.map Prod.fst) m ∅ a b hA hCl hab
    (by simp) (by simp) (adjLookup_key_mem hne)

/-- Witness for C2 at the concrete map with the single edge 1-2. -/
theorem overlap_edge_same_island_witness :
    SymmList adjEx ∧ 2 ∈ adjLookup adjEx 1 ∧
      (∃ c ∈ findConnectedComponents adjEx, 1 ∈ c ∧ 2 ∈ c) :=
  ⟨by decide, by decide, overlap_edge_same_island adjEx (by decide) 1 2 (by decide)⟩

/-- C3: every body in a cache built by compileObject and removeObject whose
inverse mass is zero or whose shape is Empty has inverse mass zero (Empty
shapes force it), and the solver step leaves it entirely unchanged. -/
theorem solver_ignores_static_or_empty (ops : List CacheOp)
    (integrate : BtBody → BtBody) (id : Int) (b : BtBody)
    (hmem : (id, b) ∈ runCacheOps ops)
    (hb : b.invMass = 0 ∨ b.shape = BtShape.empty) :
    b.invMass = 0 ∧ solverStep integrate b = b := by
  have h0 : b.invMass = 0 := by
    rcases hb with hb | hb
    · exact hb
    · exact runCacheOps_cacheInv ops (id, b) hmem hb
  exact ⟨h0, by simp [solverStep, h0]⟩

/-- Witness for C3: the body compiled by opsEx has the Empty shape, its
inverse mass was forced to zero, and the example integrator does not move
it. -/
theorem solver_ignores_static_or_empty_witness :
    ((7 : Int), bodyEx) ∈ runCacheOps opsEx ∧ bodyEx.shape = BtShape.empty ∧
      (bodyEx.invMass = 0 ∧ solverStep integrateEx bodyEx = bodyEx) := by
  have hmem : ((7 : Int), bodyEx) ∈ runCacheOps opsEx := by
    norm_num [runCacheOps, applyCacheOp, opsEx, bodyEx, compileObject,
      compiledBody, compiledInvMass, compiledShape, cacheLookup, cacheInsert,
      colShape_None]
  exact ⟨hmem, rfl,
    solver_ignores_static_or_empty opsEx integrateEx 7 bodyEx hmem (Or.inr rfl)⟩

/-- C4: a compute call whose id list contains an id missing from the object
cache returns error code 1 and leaves the cache untouched; in particular the
solver step is never invoked, so pose and velocities of every cached body
are unchanged. -/
theorem compute_missing_id_preserves_cache
    (step : ℚ → Int → List Int → ObjCache → ObjCache) (cache : ObjCache)
    (ids : List Int) (delta_t : ℚ) (max_substeps : Int) (i : Int)
    (hi : i ∈ ids) (hm : cacheLookup cache i = none) :
    compute step cache ids delta_t max_substeps = (1, cache) := by
  simp [compute, computeAllPresent_eq_false hi hm]

/-- Witness for C4: id 2 is missing from cacheEx, so the call fails with
code 1 and the cache survives even though the example step function would
have wiped it. -/
theorem compute_missing_id_preserves_cache_witness :
    (2 : Int) ∈ [1, 2] ∧ cacheLookup cacheEx 2 = none ∧
      compute stepEx cacheEx [1, 2] (1 / 10) 10 = (1, cacheEx) :=
  ⟨by decide, by decide,
    compute_missing_id_preserves_cache stepEx cacheEx [1, 2] (1 / 10) 10 2
      (by decide) (by decide)⟩

/-- C5 counterexample: the claim states a < b for every ContactPair record,
but the callback keeps the ids in manifold order: a manifold with body ids
5 and 3 and one touching contact yields a record with a = 5, b = 3. -/
theorem contactPair_not_sorted :
    ¬ (∀ r ∈ azNarrowphaseCallback [manifoldEx], r.aid_a < r.aid_b) := by
  decide

/-- C5 amended: every ContactPair record stores the two body ids in manifold
order (a is the id of the first manifold body, b of the second); records are
only produced for manifolds with user data, from contacts whose distance is
not positive. -/
theorem contactPair_ids_in_manifold_order (ms : List Manifold)
    (r : AzraelCollisionData) (hr : r ∈ azNarrowphaseCallback ms) :
    ∃ mf ∈ ms, mf.hasUserData = true ∧ r.aid_a = mf.aidA ∧ r.aid_b = mf.aidB ∧
      ∃ pt ∈ mf.contacts, ¬ pt.distance > 0 := by
  simp only [azNarrowphaseCallback, List.mem_flatMap] at hr
  obtain ⟨mf, hmf, hr2⟩ := hr
  by_cases hu : mf.hasUserData
  · rw [if_pos hu] at hr2
    simp only [List.mem_filterMap] at hr2
    obtain ⟨pt, hpt, he⟩ := hr2
    by_cases hd : pt.distance > 0
    · rw [if_pos hd] at he
      exact absurd he (by simp)
    · rw [if_neg hd] at he
      simp only [Option.some.injEq] at he
      exact ⟨mf, hmf, hu, by rw [← he], by rw [← he], pt, hpt, hd⟩
  · rw [if_neg hu] at hr2
    simp at hr2

/-- Witness for the amended C5 at the concrete manifold. -/
theorem contactPair_ids_in_manifold_order_witness :
    collisionEx ∈ azNarrowphaseCallback [manifoldEx] ∧
      (∃ mf ∈ [manifoldEx], mf.hasUserData = true ∧
        collisionEx.aid_a = mf.aidA ∧ collisionEx.aid_b = mf.aidB ∧
        ∃ pt ∈ mf.contacts, ¬ pt.distance > 0) :=
  ⟨by decide, contactPair_ids_in_manifold_order [manifoldEx] collisionEx (by decide)⟩

/-- C6 counterexample: the claim states that an unknown collision-shape tag
is rejected with no object created, but compileObject on the unknown tag 999
creates the object under its id anyway. -/
theorem unknown_shape_object_still_created :
    (cacheLookup (compileObject [] 7 1 1 (1 / 2) 0 (0, 0, 0, 1) (0, 0, 0)
      (0, 0, 0) (0, 0, 0) [999, 0, 0, 0]) 7).isSome = true := by
  norm_num [compileObject, compiledBody, compiledInvMass, compiledShape,
    cacheLookup, cacheInsert, colShape_None, colShape_Sphere, colShape_Box,
    colShape_StaticPlane]

/-- C6 amended: a body specification carrying an unknown collision-shape tag
is not rejected: compileObject creates the object anyway, with an Empty
collision shape and the inverse mass forced to zero (after printing a
warning); only Empty, Sphere, Box and StaticPlane produce their proper
shapes. -/
theorem unknown_shape_creates_empty_static (cache : ObjCache) (id : Int)
    (radius scale inv_mass restitution : ℚ) (rot : Quat4)
    (pos vLin vRot : Vec3) (cShape : List ℚ)
    (hid : cacheLookup cache id = none) (hne : cShape.isEmpty = false)
    (h0 : cShape.headI ≠ colShape_None) (h3 : cShape.headI ≠ colShape_Sphere)
    (h4 : cShape.headI ≠ colShape_Box)
    (h2 : cShape.headI ≠ colShape_StaticPlane) :
    cacheLookup (compileObject cache id radius scale inv_mass restitution rot
        pos vLin vRot cShape) id =
      some ⟨radius, scale, 0, restitution, rot, pos, vLin, vRot,
        BtShape.empty⟩ := by
  unfold compileObject
  rw [hid]
  rw [cacheLookup_cacheInsert]
  have hbody : compiledBody id radius scale inv_mass restitution rot pos vLin
      vRot cShape =
      ⟨radius, scale, 0, restitution, rot, pos, vLin, vRot, BtShape.empty⟩ := by
    norm_num [compiledBody, compiledInvMass, compiledShape, hne, h0, h3, h4, h2]
  rw [hbody]

/-- Witness for the amended C6 at the unknown tag 999. -/
theorem unknown_shape_creates_empty_static_witness :
    ([(999 : ℚ), 0, 0, 0].headI ≠ colShape_None) ∧
      cacheLookup (compileObject [] 7 1 1 (1 / 2) 0 (0, 0, 0, 1) (0, 0, 0)
          (0, 0, 0) (0, 0, 0) [999, 0, 0, 0]) 7 =
        some ⟨1, 1, 0, 0, (0, 0, 0, 1), (0, 0, 0), (0, 0, 0), (0, 0, 0),
          BtShape.empty⟩ :=
  ⟨by norm_num [colShape_None],
    unknown_shape_creates_empty_static [] 7 1 1 (1 / 2) 0 (0, 0, 0, 1)
      (0, 0, 0) (0, 0, 0) (0, 0, 0) [999, 0, 0, 0] rfl rfl
      (by norm_num [colShape_None]) (by norm_num [colShape_Sphere])
      (by norm_num [colShape_Box]) (by norm_num [colShape_StaticPlane])⟩

/-- C7 counterexample: the claim quantifies over every input adjacency map,
but on the asymmetric map with entries 1 maps to [2] and 3 maps to [2, 4],
findConnectedComponents returns the components [2] and [2, 4], and body id
2 occurs in both. -/
theorem islands_not_disjoint_on_asymmetric_input :
    ¬ List.Pairwise (fun s t => ∀ x ∈ s, x ∉ t)
      (findConnectedComponents [(1, [2]), (3, [2, 4])]) := by
  decide

/-- C7 amended: on a symmetric adjacency map (each overlap recorded in both
directions, as the broadphase does), the components returned by
findConnectedComponents are pairwise disjoint. -/
theorem islands_disjoint_of_symmetric (m : AdjMap) (hsym : SymmList m) :
    List.Pairwise (fun s t => ∀ x ∈ s, x ∉ t) (findConnectedComponents m) :=
  (ccLoop_disjoint_aux (adjFun m) (adjLookup_mem_of_symmList hsym)
    (m.map Prod.fst) m ∅ ⟨by intro x hx; simp at hx, by intro x _; rfl⟩
    (by intro v hv; simp at hv)).2

/-- Witness for the amended C7 at the concrete symmetric map. -/
theorem islands_disjoint_of_symmetric_witness :
    SymmList adjEx ∧
      List.Pairwise (fun s t => ∀ x ∈ s, x ∉ t)
        (findConnectedComponents adjEx) :=
  ⟨by decide, islands_disjoint_of_symmetric adjEx (by decide)⟩

/-- C8: applying a composed transform equals applying the transforms in
sequence, so the world pose of a compound child stored as a local transform
L under body pose B is obtained by applying B composed with L. -/
theorem transform_mul_applyVec (T1 T2 : Transform) (v : Fin 3 → ℚ) :
    (T1.mul T2).applyVec v = T1.applyVec (T2.applyVec v) := by
  simp [Transform.applyVec, Transform.mul, Matrix.mulVec_add,
    ← Matrix.mulVec_mulVec, add_assoc]

/-- C9: removeObject returns the number of ids passed, whether or not the
ids are present in the cache. -/
theorem removeObject_count_eq_numIDs (cache : ObjCache) (ids : List Int) :
    (removeObject cache ids).1 = (ids.length : Int) := by
  simp [removeObject, removeObjectLoop_count]

/-- C10: every sequence of addConstraint, removeConstraint and getConstraint
calls on a fresh simulation environment keeps the Python constraint list and
the world constraint count in agreement, so getNumConstraints never raises
its AssertionError. -/
theorem getNumConstraints_never_raises (ops : List ConstraintOp) :
    (getNumConstraints (runConstraintOps ops)).isSome = true := by
  obtain ⟨hnd, hw⟩ := runConstraintOps_inv ops
  have hlen : (runConstraintOps ops).pyList.length
      = Multiset.card (runConstraintOps ops).world := by
    rw [← hw]
    simp
  simp [getNumConstraints, hlen]

end Azrael
